import Mathlib

/-!
Verification of kylebgorman/EditTransducer (src/edit_transducer/edit_transducer.py).

The program builds a "two-factor" weighted edit transducer over a finite
alphabet: a left factor `e_i` (Kleene closure of identity arcs plus weighted
insert/delete/substitute operation arcs, each at half its cost) and a right
factor `e_o` obtained from the left one by tape inversion followed by swapping
the insert and delete tags on the new input side (lines 88-109).  The distance
between two strings is the minimum total weight over accepting paths of the
lattice `compose(compose(a, e_i), compose(e_o, b))` (lines 124-160); the
Levenshtein automaton composes the right factor with a lexicon once and
extracts shortest paths / all tied paths (lines 163-232).

The underlying weighted-automaton engine (pynini/OpenFst) is external to the
repository; following spec section 6 its primitives (composition, closure,
shortest distance over the tropical semiring) are modelled denotationally:
both factors are single-state closures, so a path of a factor is exactly a
list of its arcs, and composition joins paths whose middle-tape strings agree,
adding weights.  Weights are modelled as rationals.
-/

namespace ET

/-- Configuration produced by `EditTransducer.__init__` (lines 75-109): the
edit alphabet and the three user-specified costs.  The constructor performs no
validation of the costs. -/
structure Cfg where
  alphabet : List Char
  ins : ℚ
  del : ℚ
  sub : ℚ
  deriving DecidableEq

/-- Reserved operation labels `<insert>`, `<delete>`, `<substitute>`
(lines 70-73). -/
inductive Tag where
  | tIns
  | tDel
  | tSub
  deriving DecidableEq

/-- Symbols of the middle tape of the lattice: alphabet symbols (from the
identity arcs of `match`) or reserved operation tags. -/
inductive Mid where
  | sym (c : Char)
  | tag (t : Tag)
  deriving DecidableEq

/-- Arcs of the left factor `e_i` (lines 88-97): identity `a:a/0` from
`match`, `ε:<insert>/(ins/2)` from `i_insert`, `a:<delete>/(del/2)` from
`i_delete`, `a:<substitute>/(sub/2)` from `i_substitute`.  Since
`i_ops.closure()` has a single state, a path of `e_i` is a list of these
arcs. -/
inductive LOp where
  | mtch (c : Char)
  | ins
  | del (c : Char)
  | sub (c : Char)
  deriving DecidableEq

/-- Arcs of the right factor `e_o` (lines 98-106): `invert(i_ops)` turns the
left arcs into `a:a/0`, `<insert>:ε/(ins/2)`, `<delete>:a/(del/2)`,
`<substitute>:a/(sub/2)`; `relabel_pairs` then swaps the `<insert>` and
`<delete>` labels on the input side while each half-weight stays on its
original arc, giving `a:a/0`, `<delete>:ε/(ins/2)`, `<insert>:a/(del/2)`,
`<substitute>:a/(sub/2)`. -/
inductive ROp where
  | mtch (c : Char)
  | insOut (c : Char)
  | delOut
  | subOut (c : Char)
  deriving DecidableEq

/-- Input-tape contribution of a left-factor arc. -/
def lIn : LOp → List Char
  | .mtch c => [c]
  | .ins => []
  | .del c => [c]
  | .sub c => [c]

/-- Middle-tape (output) symbol of a left-factor arc. -/
def lMid : LOp → Mid
  | .mtch c => .sym c
  | .ins => .tag .tIns
  | .del _ => .tag .tDel
  | .sub _ => .tag .tSub

/-- Weight of a left-factor arc (lines 90-96: each edit cost divided by
two). -/
def lW (cfg : Cfg) : LOp → ℚ
  | .mtch _ => 0
  | .ins => cfg.ins / 2
  | .del _ => cfg.del / 2
  | .sub _ => cfg.sub / 2

/-- Middle-tape (input) symbol of a right-factor arc, after the
`relabel_pairs` swap of lines 103-106. -/
def rMid : ROp → Mid
  | .mtch c => .sym c
  | .insOut _ => .tag .tIns
  | .delOut => .tag .tDel
  | .subOut _ => .tag .tSub

/-- Output-tape contribution of a right-factor arc. -/
def rOut : ROp → List Char
  | .mtch c => [c]
  | .insOut c => [c]
  | .delOut => []
  | .subOut c => [c]

/-- Weight of a right-factor arc.  The weight stays attached to the arc it
was on before relabeling: the arc now labelled `<insert>` on the input side is
the inverted delete arc and carries `del/2`, and the arc now labelled
`<delete>` is the inverted insert arc and carries `ins/2`. -/
def rW (cfg : Cfg) : ROp → ℚ
  | .mtch _ => 0
  | .insOut _ => cfg.del / 2
  | .delOut => cfg.ins / 2
  | .subOut _ => cfg.sub / 2

/-- Whether a left-factor arc exists, i.e. its alphabet symbol is drawn from
`match = union(*alphabet)` (line 90). -/
def lOk (cfg : Cfg) : LOp → Prop
  | .mtch c => c ∈ cfg.alphabet
  | .ins => True
  | .del c => c ∈ cfg.alphabet
  | .sub c => c ∈ cfg.alphabet

/-- Whether a right-factor arc exists (its symbol comes from the inverted left
factor, hence from the alphabet). -/
def rOk (cfg : Cfg) : ROp → Prop
  | .mtch c => c ∈ cfg.alphabet
  | .insOut c => c ∈ cfg.alphabet
  | .delOut => True
  | .subOut c => c ∈ cfg.alphabet

/-- Input string of a left-factor path. -/
def pathIn : List LOp → List Char
  | [] => []
  | op :: p => lIn op ++ pathIn p

/-- Middle-tape string of a left-factor path. -/
def lMids : List LOp → List Mid
  | [] => []
  | op :: p => lMid op :: lMids p

/-- Total weight of a left-factor path. -/
def lWsum (cfg : Cfg) : List LOp → ℚ
  | [] => 0
  | op :: p => lW cfg op + lWsum cfg p

/-- Middle-tape string of a right-factor path. -/
def rMids : List ROp → List Mid
  | [] => []
  | op :: p => rMid op :: rMids p

/-- Output string of a right-factor path. -/
def pathOut : List ROp → List Char
  | [] => []
  | op :: p => rOut op ++ pathOut p

/-- Total weight of a right-factor path. -/
def rWsum (cfg : Cfg) : List ROp → ℚ
  | [] => 0
  | op :: p => rW cfg op + rWsum cfg p

/-- Combined arcs of the composed lattice: a left-factor arc joined with a
right-factor arc sharing the same middle-tape symbol.  `mtch c` is `a:a/0`
joined with `a:a/0`; `ins b` is `ε:<insert>/(ins/2)` joined with
`<insert>:b/(del/2)`; `del a` is `a:<delete>/(del/2)` joined with
`<delete>:ε/(ins/2)`; `sub a b` is `a:<substitute>/(sub/2)` joined with
`<substitute>:b/(sub/2)`. -/
inductive Edit where
  | mtch (c : Char)
  | ins (c : Char)
  | del (c : Char)
  | sub (a b : Char)
  deriving DecidableEq

/-- Input-tape contribution of a combined lattice arc. -/
def eIn : Edit → List Char
  | .mtch c => [c]
  | .ins _ => []
  | .del c => [c]
  | .sub a _ => [a]

/-- Output-tape contribution of a combined lattice arc. -/
def eOut : Edit → List Char
  | .mtch c => [c]
  | .ins c => [c]
  | .del _ => []
  | .sub _ b => [b]

/-- Weight of a combined lattice arc: the sum of the two joined half-weights
exactly as the code distributes them. -/
def eW (cfg : Cfg) : Edit → ℚ
  | .mtch _ => 0
  | .ins _ => cfg.ins / 2 + cfg.del / 2
  | .del _ => cfg.del / 2 + cfg.ins / 2
  | .sub _ _ => cfg.sub / 2 + cfg.sub / 2

/-- Modelled from the spec: the full cost of each edit operation "under the
given insert/delete/substitute costs", as the spec's claim C1 words it (each
operation accrues its full configured cost exactly once).  Used only to
compare the code's path weights against the spec's intended ones. -/
def specW (cfg : Cfg) : Edit → ℚ
  | .mtch _ => 0
  | .ins _ => cfg.ins
  | .del _ => cfg.del
  | .sub _ _ => cfg.sub

/-- Left-factor projection of a combined lattice path. -/
def toL : List Edit → List LOp
  | [] => []
  | .mtch c :: s => .mtch c :: toL s
  | .ins _ :: s => .ins :: toL s
  | .del c :: s => .del c :: toL s
  | .sub a _ :: s => .sub a :: toL s

/-- Right-factor projection of a combined lattice path. -/
def toR : List Edit → List ROp
  | [] => []
  | .mtch c :: s => .mtch c :: toR s
  | .ins c :: s => .insOut c :: toR s
  | .del _ :: s => .delOut :: toR s
  | .sub _ b :: s => .subOut b :: toR s

/-- Input string consumed by a combined lattice path. -/
def sIn : List Edit → List Char
  | [] => []
  | e :: s => eIn e ++ sIn s

/-- Output string produced by a combined lattice path. -/
def sOut : List Edit → List Char
  | [] => []
  | e :: s => eOut e ++ sOut s

/-- Total weight of a combined lattice path. -/
def eWsum (cfg : Cfg) : List Edit → ℚ
  | [] => 0
  | e :: s => eW cfg e + eWsum cfg s

/-- Modelled from the spec: total full-cost weight of a path, for comparison
with `eWsum`. -/
def specWsum (cfg : Cfg) : List Edit → ℚ
  | [] => 0
  | e :: s => specW cfg e + specWsum cfg s

/-- Substitution arcs for every pair of symbols of the two lists. -/
def subChoices : List Char → List Char → List Edit
  | [], _ => []
  | a :: as, bs => bs.map (Edit.sub a) ++ subChoices as bs

/-- All combined lattice arcs available over an alphabet (every arc of either
factor only carries symbols of `match = union(*alphabet)`). -/
def editChoices (alpha : List Char) : List Edit :=
  alpha.map Edit.mtch ++ alpha.map Edit.ins ++ alpha.map Edit.del ++ subChoices alpha alpha

/-- Whether a combined lattice arc exists over the given alphabet. -/
def editOk (alpha : List Char) : Edit → Prop
  | .mtch c => c ∈ alpha
  | .ins c => c ∈ alpha
  | .del c => c ∈ alpha
  | .sub a b => a ∈ alpha ∧ b ∈ alpha

/-- Extension of every script of a list by every arc of a list. -/
def consAll : List Edit → List (List Edit) → List (List Edit)
  | [], _ => []
  | e :: es, ss => ss.map (fun s => e :: s) ++ consAll es ss

/-- All lattice paths of length at most `n` over the given alphabet. -/
def scriptsUpTo (alpha : List Char) : Nat → List (List Edit)
  | 0 => [[]]
  | n + 1 => [] :: consAll (editChoices alpha) (scriptsUpTo alpha n)

/-- Suffixes of a string, longest first. -/
def suffList : List Char → List (List Char)
  | [] => [[]]
  | b :: bs => (b :: bs) :: suffList bs

/-- Accepting paths of the lattice `compose(compose(a, e_i), compose(e_o, b))`
of `_create_lattice` (lines 124-138): combined paths consuming exactly `a` and
producing exactly `b`.  Every lattice arc consumes or produces at least one
symbol, so accepting paths have length at most `a.length + b.length` and the
bounded enumeration is exhaustive (proved below). -/
def validScripts (cfg : Cfg) (a b : List Char) : List (List Edit) :=
  (scriptsUpTo cfg.alphabet (a.length + b.length)).filter
    fun s => decide (sIn s = a ∧ sOut s = b)

/-- Minimum of a list of rationals, `none` on the empty list: the
single-source shortest distance of `shortestdistance(lattice, reverse=True)`
over the tropical semiring, taken over the (finitely many) accepting
paths. -/
def listMin : List ℚ → Option ℚ
  | [] => none
  | x :: xs =>
    some (match listMin xs with
          | none => x
          | some m => min x m)

/-- Model of `LevenshteinDistance.distance` (lines 144-160): build the
lattice for the pair, fail (`none`, modelling `LatticeError`) when it has no
accepting path (empty lattice, line 121), otherwise return the minimum total
path weight. -/
def distance (cfg : Cfg) (a b : List Char) : Option ℚ :=
  listMin ((validScripts cfg a b).map (eWsum cfg))

/-- Modelled from the spec: the minimum total full-cost weight over the same
accepting alignments, i.e. "the exact minimum weighted edit cost of
transforming a into b under the given insert/delete/substitute costs". -/
def specDistance (cfg : Cfg) (a b : List Char) : Option ℚ :=
  listMin ((validScripts cfg a b).map (specWsum cfg))

/-- Half-cost pair charged by the lattice for an insertion (and, with the two
summands exchanged, for a deletion). -/
def hc (cfg : Cfg) : ℚ :=
  cfg.ins / 2 + cfg.del / 2

/-- Weight of a combined substitution arc. -/
def subW (cfg : Cfg) : ℚ :=
  cfg.sub / 2 + cfg.sub / 2

/-- Cheapest way the lattice can relate one input symbol to one output symbol
in place: a zero-weight identity arc when they are equal (a substitution arc
`sub c c` also exists), a substitution arc otherwise. -/
def diag (cfg : Cfg) (x y : Char) : ℚ :=
  if x = y then min 0 (subW cfg) else subW cfg

/-- Fuel-indexed recursive minimum alignment weight; with
`a.length + b.length ≤ fuel` it computes the minimum of `eWsum` over paths
consuming `a` and producing `b` (proved below). -/
def levF (cfg : Cfg) : Nat → List Char → List Char → ℚ
  | 0, _, _ => 0
  | _ + 1, [], [] => 0
  | n + 1, [], _ :: bs => hc cfg + levF cfg n [] bs
  | n + 1, _ :: as, [] => hc cfg + levF cfg n as []
  | n + 1, a :: as, b :: bs =>
    min (min (hc cfg + levF cfg n as (b :: bs)) (hc cfg + levF cfg n (a :: as) bs))
        (diag cfg a b + levF cfg n as bs)

/-- Recursive minimum alignment weight with just enough fuel. -/
def lev (cfg : Cfg) (a b : List Char) : ℚ :=
  levF cfg (a.length + b.length) a b

/-- First row of the iterative dynamic program: minimum alignment weight of
the empty input against each suffix of `b`, innermost suffix last. -/
def baseRow (cfg : Cfg) : List Char → List ℚ
  | [] => [0]
  | _ :: bs => (hc cfg + (baseRow cfg bs).headD 0) :: baseRow cfg bs

/-- One step of the iterative dynamic program: from the row for input suffix
`as` compute the row for `a :: as`. -/
def nextRow (cfg : Cfg) (a : Char) : List Char → List ℚ → List ℚ
  | [], old => [hc cfg + old.headD 0]
  | b :: bs, old =>
    (min (min (hc cfg + old.headD 0) (hc cfg + (nextRow cfg a bs old.tail).headD 0))
         (diag cfg a b + old.tail.headD 0)) :: nextRow cfg a bs old.tail

/-- Full iterative dynamic program over the input string. -/
def levRows (cfg : Cfg) : List Char → List Char → List ℚ
  | [], b => baseRow cfg b
  | a :: as, b => nextRow cfg a b (levRows cfg as b)

/-- Evaluable minimum alignment weight (kernel-reducible row dynamic
program). -/
def levTop (cfg : Cfg) (a b : List Char) : ℚ :=
  (levRows cfg a b).headD 0

/-- Evaluable form of `distance` (proved equal to it below): the lattice is
empty exactly when some symbol of either string is outside the alphabet, and
otherwise the minimum path weight is the dynamic-programming value. -/
def distEval (cfg : Cfg) (a b : List Char) : Option ℚ :=
  if (a.all fun c => decide (c ∈ cfg.alphabet)) &&
     (b.all fun c => decide (c ∈ cfg.alphabet)) then
    some (levTop cfg a b)
  else
    none

/-- Accepting paths of the Levenshtein-automaton lattice built by
`_create_levenshtein_automaton_lattice` (lines 179-191): the right factor is
composed with `string_map(lexicon)` (lines 174-177), a zero-weight union
mapping each lexicon string to itself, so an accepting path is a lattice path
from the query to some lexicon entry, paired with that entry (the output-tape
string). -/
def queryPairs (cfg : Cfg) : List (List Char) → List Char → List (List Edit × List Char)
  | [], _ => []
  | w :: ws, q => (validScripts cfg q w).map (fun s => (s, w)) ++ queryPairs cfg ws q

/-- Minimum total weight over the query lattice's accepting paths. -/
def queryMin (cfg : Cfg) (lex : List (List Char)) (q : List Char) : Option ℚ :=
  listMin ((queryPairs cfg lex q).map fun pr => eWsum cfg pr.1)

/-- Minimum of `distance q w` over the lexicon entries `w` (entries whose
lattice is empty contribute nothing). -/
def bestDist (cfg : Cfg) (lex : List (List Char)) (q : List Char) : Option ℚ :=
  listMin (lex.filterMap fun w => distance cfg q w)

/-- Model of `LevenshteinAutomaton.closest_matches` (lines 214-232): build
the query lattice, prune all paths whose weight exceeds the best by more than
`weight=0` (keeping exactly the minimum-weight paths), project onto the
output tape, and enumerate the distinct output strings (`optimize(True)`
determinizes, so each string appears once). -/
def closestMatches (cfg : Cfg) (lex : List (List Char)) (q : List Char) : List (List Char) :=
  (((queryPairs cfg lex q).filter
      fun pr => decide (some (eWsum cfg pr.1) = queryMin cfg lex q)).map
    fun pr => pr.2).dedup

/-- Evaluable form of `bestDist`. -/
def bestDistEval (cfg : Cfg) (lex : List (List Char)) (q : List Char) : Option ℚ :=
  listMin (lex.filterMap fun w => distEval cfg q w)

/-- Evaluable form of `closestMatches` (proved equal to it below). -/
def closestMatchesEval (cfg : Cfg) (lex : List (List Char)) (q : List Char) : List (List Char) :=
  (lex.filter fun w =>
    decide (distEval cfg q w = bestDistEval cfg lex q ∧ (bestDistEval cfg lex q).isSome)).dedup

/-- Swap of the two tapes of a combined lattice arc. -/
def transp : Edit → Edit
  | .mtch c => .mtch c
  | .ins c => .del c
  | .del c => .ins c
  | .sub a b => .sub b a

/-- Discriminator for insertion arcs. -/
def isIns : Edit → Bool
  | .ins _ => true
  | _ => false

/-- Discriminator for deletion arcs. -/
def isDel : Edit → Bool
  | .del _ => true
  | _ => false

/-- Discriminator for substitution arcs. -/
def isSub : Edit → Bool
  | .sub _ _ => true
  | _ => false

/-- Discriminator for identity arcs. -/
def isMtch : Edit → Bool
  | .mtch _ => true
  | _ => false

/-- Reachability of a target string from a query through the factors: some
accepting alignment path exists. -/
def Reachable (cfg : Cfg) (q w : List Char) : Prop :=
  ∃ s, sIn s = q ∧ sOut s = w ∧ ∀ e ∈ s, e ∈ editChoices cfg.alphabet

/-- Default costs of lines 50-52 of the source. -/
def DEFAULT_INSERT_COST : ℚ := 1

/-- Default costs of lines 50-52 of the source. -/
def DEFAULT_DELETE_COST : ℚ := 1

/-- Default costs of lines 50-52 of the source: the default substitute cost
is the constant `1`, not a value synthesized from the other two costs. -/
def DEFAULT_SUBSTITUTE_COST : ℚ := 1

/-- Model of `EditTransducer.__init__` (lines 75-109): the constructor builds
the factors from the alphabet and stores the costs without validating them
(no `ConfigError` exists in the source; `LatticeError`, line 55, is its only
error type).  The only way construction can fail is `union(*alphabet)` on an
empty alphabet, where the underlying library rejects a call with no
arguments (a library `TypeError`, modelled as `none`). -/
def initET (alphabet : List Char) (ic dc sc : ℚ) : Option Cfg :=
  if alphabet = [] then none else some ⟨alphabet, ic, dc, sc⟩

/-- Model of calling the constructor with the `substitute_cost` argument
omitted: Python fills in the default of line 52. -/
def initETdefault (alphabet : List Char) (ic dc : ℚ) : Option Cfg :=
  initET alphabet ic dc DEFAULT_SUBSTITUTE_COST

/-- Heap effects of one engine call made by a method body: allocation of a
fresh automaton, or in-place mutation of the automaton at an existing
reference.  References are allocation indices; a call entered with `n`
objects alive allocates references `n`, `n + 1`, ... in order.  Per spec
section 6 the engine's `compose`, `shortestdistance` and `shortestpath` are
pure (composition allocates its result), while `prune`, `project`,
`optimize` and `topsort` are in-place. -/
inductive Effect where
  | alloc
  | mutate (r : Nat)
  deriving DecidableEq

/-- Effects of `_create_lattice` (lines 124-138) entered with `n` live
objects: `compose(iset, e_i)` allocates `n`, `compose(e_o, oset)` allocates
`n + 1`, `compose(l_i, l_o)` allocates `n + 2`;
`check_wellformed_lattice` only reads `lattice.start()`. -/
def createLatticeEffects (_n : Nat) : List Effect :=
  [.alloc, .alloc, .alloc]

/-- Effects of `LevenshteinDistance.distance` (lines 144-160): those of
`_create_lattice`, then the pure `shortestdistance`. -/
def distanceEffects (n : Nat) : List Effect :=
  createLatticeEffects n

/-- Effects of `_create_levenshtein_automaton_lattice` (lines 179-191):
`compose(query, e_i)` allocates `n`, `compose(l_i, l_o)` allocates
`n + 1`. -/
def queryLatticeEffects (_n : Nat) : List Effect :=
  [.alloc, .alloc]

/-- Effects of `closest_match` (lines 193-212): the query lattice, then
`shortestpath(lattice)` allocates `n + 2` and `topsort()` mutates that fresh
result in place (`stringify` only reads it). -/
def closestMatchEffects (n : Nat) : List Effect :=
  queryLatticeEffects n ++ [.alloc, .mutate (n + 2)]

/-- Effects of `closest_matches` (lines 214-232): the query lattice at
reference `n + 1`, then `prune(weight=0)`, `project(True)` and
`optimize(True)` each mutate that per-call lattice in place (line 231);
`paths().ostrings()` only reads it. -/
def closestMatchesEffects (n : Nat) : List Effect :=
  queryLatticeEffects n ++ [.mutate (n + 1), .mutate (n + 1), .mutate (n + 1)]

/-- Alphabet `string.ascii_lowercase` used by the repository's test suite. -/
def lowercase : List Char :=
  "abcdefghijklmnopqrstuvwxyz".data

/-- Configuration of the test suite: lowercase alphabet, all costs 1. -/
def cheeseCfg : Cfg :=
  ⟨lowercase, 1, 1, 1⟩

/-- Lexicon of the test suite (`cheese_lexicon`). -/
def cheeseLex : List (List Char) :=
  ["tilsit".data, "caerphilly".data, "stilton".data, "gruyere".data,
   "emmental".data, "liptauer".data, "lancashire".data, "cheshire".data,
   "brie".data, "roquefort".data, "savoyard".data, "boursin".data,
   "camembert".data, "gouda".data, "edam".data, "caithness".data,
   "wensleydale".data, "gorgonzola".data, "parmesan".data,
   "mozzarella".data, "fynbo".data, "cheddar".data, "ilchester".data,
   "limburger".data]

/-- Two-letter alphabet with unit costs, for witnesses. -/
def cfgAB : Cfg :=
  ⟨['a', 'b'], 1, 1, 1⟩

/-- Configuration exhibiting the crossed half-weights: one-letter alphabet,
insert cost 0, delete cost 2, substitute cost 3. -/
def bugCfg : Cfg :=
  ⟨['a'], 0, 2, 3⟩

end ET

namespace ET

/-! ## Minimum-of-list characterizations -/

theorem listMin_eq_none_iff (l : List ℚ) : listMin l = none ↔ l = [] := by
  cases l <;> simp [listMin]

theorem listMin_mem : ∀ {l : List ℚ} {q : ℚ}, listMin l = some q → q ∈ l := by
  intro l
  induction l with
  | nil => intro q h; simp [listMin] at h
  | cons x xs ih =>
    intro q h
    simp only [listMin] at h
    cases hxs : listMin xs with
    | none => rw [hxs] at h; simp_all
    | some m =>
      rw [hxs] at h
      simp only [Option.some.injEq] at h
      rcases min_cases x m with ⟨hmin, _⟩ | ⟨hmin, _⟩
      · rw [hmin] at h
        subst h
        exact List.mem_cons_self _ _
      · rw [hmin] at h
        subst h
        exact List.mem_cons_of_mem _ (ih hxs)

theorem listMin_le : ∀ {l : List ℚ} {q : ℚ}, listMin l = some q → ∀ x ∈ l, q ≤ x := by
  intro l
  induction l with
  | nil => intro q h; simp [listMin] at h
  | cons x xs ih =>
    intro q h y hy
    simp only [listMin] at h
    cases hxs : listMin xs with
    | none =>
      rw [hxs] at h
      have : xs = [] := (listMin_eq_none_iff xs).mp hxs
      subst this
      simp only [Option.some.injEq] at h
      simp only [List.mem_singleton] at hy
      subst hy; subst h; exact le_refl _
    | some m =>
      rw [hxs] at h
      simp only [Option.some.injEq] at h
      rcases List.mem_cons.mp hy with rfl | hmem
      · rw [← h]; exact min_le_left _ _
      · calc q = min x m := h.symm
          _ ≤ m := min_le_right _ _
          _ ≤ y := ih hxs y hmem

theorem listMin_eq_some_of : ∀ {l : List ℚ} {q : ℚ}, q ∈ l → (∀ x ∈ l, q ≤ x) →
    listMin l = some q := by
  intro l
  induction l with
  | nil => intro q h; simp at h
  | cons x xs ih =>
    intro q hmem hle
    simp only [listMin]
    cases hxs : listMin xs with
    | none =>
      have : xs = [] := (listMin_eq_none_iff xs).mp hxs
      subst this
      simp only [List.mem_singleton] at hmem
      simp [hmem]
    | some m =>
      have hmx : m ∈ xs := listMin_mem hxs
      have hqm : q ≤ m := hle m (List.mem_cons_of_mem _ hmx)
      have hqx : q ≤ x := hle x (List.mem_cons_self _ _)
      rcases List.mem_cons.mp hmem with rfl | hqxs
      · simp [min_eq_left hqm]
      · have hmq : m ≤ q := listMin_le hxs q hqxs
        have : m = q := le_antisymm hmq hqm
        subst this
        simp [min_eq_right hqx]

theorem listMin_perm {l l' : List ℚ} (h : l.Perm l') : listMin l = listMin l' := by
  cases hl : listMin l with
  | none =>
    have : l = [] := (listMin_eq_none_iff l).mp hl
    subst this
    have : l' = [] := h.nil_eq.symm
    subst this
    rfl
  | some q =>
    have hmem : q ∈ l' := h.mem_iff.mp (listMin_mem hl)
    have hle : ∀ x ∈ l', q ≤ x := fun x hx => listMin_le hl x (h.mem_iff.mpr hx)
    exact (listMin_eq_some_of hmem hle).symm

end ET

namespace ET

/-! ## Script structure lemmas -/

theorem sIn_append : ∀ s t : List Edit, sIn (s ++ t) = sIn s ++ sIn t := by
  intro s t
  induction s with
  | nil => simp [sIn]
  | cons e s ih => simp [sIn, ih]

theorem sOut_append : ∀ s t : List Edit, sOut (s ++ t) = sOut s ++ sOut t := by
  intro s t
  induction s with
  | nil => simp [sOut]
  | cons e s ih => simp [sOut, ih]

theorem eWsum_append (cfg : Cfg) : ∀ s t : List Edit,
    eWsum cfg (s ++ t) = eWsum cfg s + eWsum cfg t := by
  intro s t
  induction s with
  | nil => simp [eWsum]
  | cons e s ih => simp [eWsum, ih]; ring

theorem mem_subChoices {e : Edit} : ∀ {as bs : List Char},
    e ∈ subChoices as bs ↔ ∃ a ∈ as, ∃ b ∈ bs, e = .sub a b := by
  intro as
  induction as with
  | nil => simp [subChoices]
  | cons a as ih =>
    intro bs
    simp only [subChoices, List.mem_append, List.mem_map, ih, List.mem_cons]
    constructor
    · rintro (⟨b, hb, rfl⟩ | ⟨x, hx, b, hb, rfl⟩)
      · exact ⟨a, Or.inl rfl, b, hb, rfl⟩
      · exact ⟨x, Or.inr hx, b, hb, rfl⟩
    · rintro ⟨x, hx | hx, b, hb, rfl⟩
      · subst hx; exact Or.inl ⟨b, hb, rfl⟩
      · exact Or.inr ⟨x, hx, b, hb, rfl⟩

theorem mem_editChoices {alpha : List Char} {e : Edit} :
    e ∈ editChoices alpha ↔ editOk alpha e := by
  cases e with
  | mtch c =>
    simp [editChoices, editOk, List.mem_append, List.mem_map, mem_subChoices]
  | ins c =>
    simp [editChoices, editOk, List.mem_append, List.mem_map, mem_subChoices]
  | del c =>
    simp [editChoices, editOk, List.mem_append, List.mem_map, mem_subChoices]
  | sub a b =>
    simp [editChoices, editOk, List.mem_append, List.mem_map, mem_subChoices]

theorem mem_consAll {s : List Edit} {ss : List (List Edit)} : ∀ {es : List Edit},
    s ∈ consAll es ss ↔ ∃ e ∈ es, ∃ t ∈ ss, s = e :: t := by
  intro es
  induction es with
  | nil => simp [consAll]
  | cons e es ih =>
    simp only [consAll, List.mem_append, List.mem_map, ih, List.mem_cons]
    constructor
    · rintro (⟨t, ht, rfl⟩ | ⟨x, hx, t, ht, rfl⟩)
      · exact ⟨e, Or.inl rfl, t, ht, rfl⟩
      · exact ⟨x, Or.inr hx, t, ht, rfl⟩
    · rintro ⟨x, hx | hx, t, ht, rfl⟩
      · subst hx; exact Or.inl ⟨t, ht, rfl⟩
      · exact Or.inr ⟨x, hx, t, ht, rfl⟩

theorem mem_scriptsUpTo {alpha : List Char} : ∀ {n : Nat} {s : List Edit},
    s ∈ scriptsUpTo alpha n ↔ s.length ≤ n ∧ ∀ e ∈ s, e ∈ editChoices alpha := by
  intro n
  induction n with
  | zero =>
    intro s
    simp only [scriptsUpTo, List.mem_singleton]
    constructor
    · rintro rfl; simp
    · rintro ⟨hlen, _⟩
      exact List.eq_nil_of_length_eq_zero (Nat.le_zero.mp hlen)
  | succ n ih =>
    intro s
    simp only [scriptsUpTo, List.mem_cons, mem_consAll]
    constructor
    · rintro (rfl | ⟨e, he, t, ht, rfl⟩)
      · simp
      · rcases ih.mp ht with ⟨hlen, hok⟩
        refine ⟨by simpa using Nat.succ_le_succ hlen, ?_⟩
        intro x hx
        rcases List.mem_cons.mp hx with rfl | hx
        · exact he
        · exact hok x hx
    · rintro ⟨hlen, hok⟩
      cases s with
      | nil => exact Or.inl rfl
      | cons e t =>
        refine Or.inr ⟨e, hok e (List.mem_cons_self _ _), t, ?_, rfl⟩
        refine ih.mpr ⟨?_, fun x hx => hok x (List.mem_cons_of_mem _ hx)⟩
        simpa using Nat.le_of_succ_le_succ hlen

theorem length_le_budget : ∀ s : List Edit,
    s.length ≤ (sIn s).length + (sOut s).length := by
  intro s
  induction s with
  | nil => simp [sIn, sOut]
  | cons e s ih =>
    have h1 : 1 ≤ (eIn e).length + (eOut e).length := by
      cases e <;> simp [eIn, eOut]
    simp only [sIn, sOut, List.length_cons, List.length_append]
    omega

theorem mem_validScripts {cfg : Cfg} {a b : List Char} {s : List Edit} :
    s ∈ validScripts cfg a b ↔
      sIn s = a ∧ sOut s = b ∧ ∀ e ∈ s, e ∈ editChoices cfg.alphabet := by
  simp only [validScripts, List.mem_filter, mem_scriptsUpTo, decide_eq_true_eq]
  constructor
  · rintro ⟨⟨_, hok⟩, hin, hout⟩
    exact ⟨hin, hout, hok⟩
  · rintro ⟨hin, hout, hok⟩
    refine ⟨⟨?_, hok⟩, hin, hout⟩
    have := length_le_budget s
    rw [hin, hout] at this
    exact this

end ET

namespace ET

/-! ## Correspondence between combined lattice paths and factor-path pairs

A path of the composed lattice is exactly a pair of a left-factor path and a
right-factor path with identical middle-tape strings; its weight is the sum
of the two half-path weights.  This justifies working with combined scripts
throughout. -/

theorem lMids_toL_eq_rMids_toR : ∀ s : List Edit, lMids (toL s) = rMids (toR s) := by
  intro s
  induction s with
  | nil => rfl
  | cons e s ih => cases e <;> simp [toL, toR, lMids, rMids, lMid, rMid, ih]

theorem pathIn_toL : ∀ s : List Edit, pathIn (toL s) = sIn s := by
  intro s
  induction s with
  | nil => rfl
  | cons e s ih => cases e <;> simp [toL, pathIn, sIn, lIn, eIn, ih]

theorem pathOut_toR : ∀ s : List Edit, pathOut (toR s) = sOut s := by
  intro s
  induction s with
  | nil => rfl
  | cons e s ih => cases e <;> simp [toR, pathOut, sOut, rOut, eOut, ih]

theorem halves_sum (cfg : Cfg) : ∀ s : List Edit,
    lWsum cfg (toL s) + rWsum cfg (toR s) = eWsum cfg s := by
  intro s
  induction s with
  | nil => simp [toL, toR, lWsum, rWsum, eWsum]
  | cons e s ih =>
    cases e <;>
      (simp only [toL, toR, lWsum, rWsum, eWsum, lW, rW, eW] ; linarith [ih])

theorem lOk_toL {cfg : Cfg} : ∀ {s : List Edit},
    (∀ e ∈ s, editOk cfg.alphabet e) → ∀ op ∈ toL s, lOk cfg op := by
  intro s
  induction s with
  | nil => intro _ op hop; simp [toL] at hop
  | cons e s ih =>
    intro h op hop
    have he := h e (List.mem_cons_self _ _)
    have ht : ∀ x ∈ s, editOk cfg.alphabet x :=
      fun x hx => h x (List.mem_cons_of_mem _ hx)
    cases e with
    | mtch c =>
      rcases List.mem_cons.mp hop with rfl | hop
      · exact he
      · exact ih ht op hop
    | ins c =>
      rcases List.mem_cons.mp hop with rfl | hop
      · exact trivial
      · exact ih ht op hop
    | del c =>
      rcases List.mem_cons.mp hop with rfl | hop
      · exact he
      · exact ih ht op hop
    | sub a b =>
      rcases List.mem_cons.mp hop with rfl | hop
      · exact he.1
      · exact ih ht op hop

theorem rOk_toR {cfg : Cfg} : ∀ {s : List Edit},
    (∀ e ∈ s, editOk cfg.alphabet e) → ∀ op ∈ toR s, rOk cfg op := by
  intro s
  induction s with
  | nil => intro _ op hop; simp [toR] at hop
  | cons e s ih =>
    intro h op hop
    have he := h e (List.mem_cons_self _ _)
    have ht : ∀ x ∈ s, editOk cfg.alphabet x :=
      fun x hx => h x (List.mem_cons_of_mem _ hx)
    cases e with
    | mtch c =>
      rcases List.mem_cons.mp hop with rfl | hop
      · exact he
      · exact ih ht op hop
    | ins c =>
      rcases List.mem_cons.mp hop with rfl | hop
      · exact he
      · exact ih ht op hop
    | del c =>
      rcases List.mem_cons.mp hop with rfl | hop
      · exact trivial
      · exact ih ht op hop
    | sub a b =>
      rcases List.mem_cons.mp hop with rfl | hop
      · exact he.2
      · exact ih ht op hop

theorem editOk_of_factors {cfg : Cfg} : ∀ {s : List Edit},
    (∀ op ∈ toL s, lOk cfg op) → (∀ op ∈ toR s, rOk cfg op) →
    ∀ e ∈ s, editOk cfg.alphabet e := by
  intro s
  induction s with
  | nil => intro _ _ e he; simp at he
  | cons e0 s ih =>
    intro hL hR e he
    have hLt : ∀ op ∈ toL s, lOk cfg op := by
      intro op hop
      apply hL op
      cases e0 <;> simp [toL, List.mem_cons, hop]
    have hRt : ∀ op ∈ toR s, rOk cfg op := by
      intro op hop
      apply hR op
      cases e0 <;> simp [toR, List.mem_cons, hop]
    rcases List.mem_cons.mp he with rfl | hes
    · cases e with
      | mtch c => exact hL (.mtch c) (by simp [toL])
      | ins c => exact hR (.insOut c) (by simp [toR])
      | del c => exact hL (.del c) (by simp [toL])
      | sub a b =>
        exact ⟨hL (.sub a) (by simp [toL]), hR (.subOut b) (by simp [toR])⟩
    · exact ih hLt hRt e hes

theorem merge_exists : ∀ (p : List LOp) (q : List ROp), lMids p = rMids q →
    ∃ s, toL s = p ∧ toR s = q := by
  intro p
  induction p with
  | nil =>
    intro q h
    cases q with
    | nil => exact ⟨[], rfl, rfl⟩
    | cons rop q' => simp [lMids, rMids] at h
  | cons op p' ih =>
    intro q h
    cases q with
    | nil => simp [lMids, rMids] at h
    | cons rop q' =>
      simp only [lMids, rMids, List.cons.injEq] at h
      obtain ⟨h1, h2⟩ := h
      obtain ⟨s', hs1, hs2⟩ := ih q' h2
      cases op with
      | mtch c =>
        cases rop with
        | mtch c' =>
          simp only [lMid, rMid, Mid.sym.injEq] at h1
          subst h1
          exact ⟨.mtch c :: s', by simp [toL, hs1], by simp [toR, hs2]⟩
        | insOut b => simp [lMid, rMid] at h1
        | delOut => simp [lMid, rMid] at h1
        | subOut b => simp [lMid, rMid] at h1
      | ins =>
        cases rop with
        | mtch c' => simp [lMid, rMid] at h1
        | insOut b => exact ⟨.ins b :: s', by simp [toL, hs1], by simp [toR, hs2]⟩
        | delOut => simp [lMid, rMid] at h1
        | subOut b => simp [lMid, rMid] at h1
      | del c =>
        cases rop with
        | mtch c' => simp [lMid, rMid] at h1
        | insOut b => simp [lMid, rMid] at h1
        | delOut => exact ⟨.del c :: s', by simp [toL, hs1], by simp [toR, hs2]⟩
        | subOut b => simp [lMid, rMid] at h1
      | sub c =>
        cases rop with
        | mtch c' => simp [lMid, rMid] at h1
        | insOut b => simp [lMid, rMid] at h1
        | delOut => simp [lMid, rMid] at h1
        | subOut b => exact ⟨.sub c b :: s', by simp [toL, hs1], by simp [toR, hs2]⟩

/-- Faithfulness of the combined-script lattice model: accepting paths of the
composed lattice (pairs of factor paths agreeing on the middle tape, with
existing arcs, consuming `a` and producing `b`) are exactly the combined
scripts of `validScripts`, and weights add across the two factors. -/
theorem lattice_pairs_correspond (cfg : Cfg) (a b : List Char) :
    (∀ s ∈ validScripts cfg a b,
        lMids (toL s) = rMids (toR s) ∧ pathIn (toL s) = a ∧ pathOut (toR s) = b ∧
        lWsum cfg (toL s) + rWsum cfg (toR s) = eWsum cfg s) ∧
    (∀ p q, lMids p = rMids q → pathIn p = a → pathOut q = b →
        (∀ op ∈ p, lOk cfg op) → (∀ op ∈ q, rOk cfg op) →
        ∃ s ∈ validScripts cfg a b,
          toL s = p ∧ toR s = q ∧ eWsum cfg s = lWsum cfg p + rWsum cfg q) := by
  constructor
  · intro s hs
    rcases mem_validScripts.mp hs with ⟨hin, hout, _⟩
    exact ⟨lMids_toL_eq_rMids_toR s, by rw [pathIn_toL, hin],
      by rw [pathOut_toR, hout], halves_sum cfg s⟩
  · intro p q hmid hin hout hpok hqok
    obtain ⟨s, hsL, hsR⟩ := merge_exists p q hmid
    subst hsL; subst hsR
    have hok : ∀ e ∈ s, editOk cfg.alphabet e := editOk_of_factors hpok hqok
    have hmem : s ∈ validScripts cfg a b := by
      refine mem_validScripts.mpr ⟨?_, ?_, ?_⟩
      · rw [← pathIn_toL]; exact hin
      · rw [← pathOut_toR]; exact hout
      · intro e he; exact mem_editChoices.mpr (hok e he)
    exact ⟨s, hmem, rfl, rfl, (halves_sum cfg s).symm⟩

end ET

namespace ET

/-! ## The recursive minimum alignment weight -/

theorem levF_congr (cfg : Cfg) : ∀ (n m : Nat) (a b : List Char),
    a.length + b.length ≤ n → a.length + b.length ≤ m →
    levF cfg n a b = levF cfg m a b := by
  intro n
  induction n with
  | zero =>
    intro m a b hn _
    have ha : a = [] := by
      cases a with
      | nil => rfl
      | cons x as => simp [List.length_cons] at hn
    have hb : b = [] := by
      cases b with
      | nil => rfl
      | cons y bs => simp [List.length_cons] at hn
    subst ha; subst hb
    cases m <;> simp [levF]
  | succ n ih =>
    intro m a b hn hm
    cases m with
    | zero =>
      have ha : a = [] := by
        cases a with
        | nil => rfl
        | cons x as => simp [List.length_cons] at hm
      have hb : b = [] := by
        cases b with
        | nil => rfl
        | cons y bs => simp [List.length_cons] at hm
      subst ha; subst hb
      simp [levF]
    | succ m =>
      cases a with
      | nil =>
        cases b with
        | nil => simp [levF]
        | cons y bs =>
          simp only [List.length_cons, List.length_nil] at hn hm
          simp only [levF]
          rw [ih m [] bs (by simp; omega) (by simp; omega)]
      | cons x as =>
        cases b with
        | nil =>
          simp only [List.length_cons, List.length_nil] at hn hm
          simp only [levF]
          rw [ih m as [] (by simp; omega) (by simp; omega)]
        | cons y bs =>
          simp only [List.length_cons] at hn hm
          simp only [levF]
          rw [ih m as (y :: bs) (by simp; omega) (by simp; omega),
              ih m (x :: as) bs (by simp; omega) (by simp; omega),
              ih m as bs (by omega) (by omega)]

theorem lev_nil_nil (cfg : Cfg) : lev cfg [] [] = 0 := rfl

theorem lev_nil_cons (cfg : Cfg) (b : Char) (bs : List Char) :
    lev cfg [] (b :: bs) = hc cfg + lev cfg [] bs := by
  unfold lev
  rw [levF_congr cfg (List.length [] + (b :: bs).length) (bs.length + 1) [] (b :: bs)
        (by simp) (by simp)]
  simp only [levF]
  rw [levF_congr cfg bs.length (List.length [] + bs.length) [] bs (by simp) (by simp)]

theorem lev_cons_nil (cfg : Cfg) (a : Char) (as : List Char) :
    lev cfg (a :: as) [] = hc cfg + lev cfg as [] := by
  unfold lev
  rw [levF_congr cfg ((a :: as).length + List.length []) (as.length + 1) (a :: as) []
        (by simp) (by simp)]
  simp only [levF]
  rw [levF_congr cfg as.length (as.length + List.length []) as [] (by simp) (by simp)]

theorem lev_cons_cons (cfg : Cfg) (a : Char) (as : List Char) (b : Char) (bs : List Char) :
    lev cfg (a :: as) (b :: bs) =
      min (min (hc cfg + lev cfg as (b :: bs)) (hc cfg + lev cfg (a :: as) bs))
          (diag cfg a b + lev cfg as bs) := by
  unfold lev
  rw [levF_congr cfg ((a :: as).length + (b :: bs).length)
        (as.length + bs.length + 1 + 1) (a :: as) (b :: bs)
        (by simp only [List.length_cons]; omega)
        (by simp only [List.length_cons]; omega)]
  simp only [levF]
  rw [levF_congr cfg (as.length + bs.length + 1) (as.length + (b :: bs).length)
        as (b :: bs) (by simp only [List.length_cons]; omega)
        (by simp only [List.length_cons]; omega),
      levF_congr cfg (as.length + bs.length + 1) ((a :: as).length + bs.length)
        (a :: as) bs (by simp only [List.length_cons]; omega)
        (by simp only [List.length_cons]; omega),
      levF_congr cfg (as.length + bs.length + 1) (as.length + bs.length)
        as bs (by omega) (by omega)]

theorem lev_le_ins (cfg : Cfg) (a : List Char) (b : Char) (bs : List Char) :
    lev cfg a (b :: bs) ≤ hc cfg + lev cfg a bs := by
  cases a with
  | nil => exact le_of_eq (lev_nil_cons cfg b bs)
  | cons x as =>
    rw [lev_cons_cons]
    exact le_trans (min_le_left _ _) (min_le_right _ _)

theorem lev_le_del (cfg : Cfg) (a : Char) (as : List Char) (b : List Char) :
    lev cfg (a :: as) b ≤ hc cfg + lev cfg as b := by
  cases b with
  | nil => exact le_of_eq (lev_cons_nil cfg a as)
  | cons y bs =>
    rw [lev_cons_cons]
    exact le_trans (min_le_left _ _) (min_le_left _ _)

theorem lev_le_diag (cfg : Cfg) (a : Char) (as : List Char) (b : Char) (bs : List Char) :
    lev cfg (a :: as) (b :: bs) ≤ diag cfg a b + lev cfg as bs := by
  rw [lev_cons_cons]
  exact min_le_right _ _

theorem diag_le_subW (cfg : Cfg) (x y : Char) : diag cfg x y ≤ subW cfg := by
  unfold diag
  split
  · exact min_le_right _ _
  · exact le_refl _

theorem diag_self_le_zero (cfg : Cfg) (x : Char) : diag cfg x x ≤ 0 := by
  simp only [diag, if_pos rfl]
  exact min_le_left _ _

/-- The recursive value is a lower bound on the weight of every lattice
path. -/
theorem lev_lb (cfg : Cfg) : ∀ s : List Edit,
    lev cfg (sIn s) (sOut s) ≤ eWsum cfg s := by
  intro s
  induction s with
  | nil => simp [sIn, sOut, eWsum, lev_nil_nil]
  | cons e s ih =>
    cases e with
    | mtch c =>
      have h1 : lev cfg (c :: sIn s) (c :: sOut s) ≤ diag cfg c c + lev cfg (sIn s) (sOut s) :=
        lev_le_diag cfg c (sIn s) c (sOut s)
      have h2 : diag cfg c c + lev cfg (sIn s) (sOut s) ≤ 0 + eWsum cfg s :=
        add_le_add (diag_self_le_zero cfg c) ih
      simp only [sIn, sOut, eWsum, eIn, eOut, eW, List.cons_append, List.nil_append]
      linarith
    | ins c =>
      have h1 : lev cfg (sIn s) (c :: sOut s) ≤ hc cfg + lev cfg (sIn s) (sOut s) :=
        lev_le_ins cfg (sIn s) c (sOut s)
      simp only [sIn, sOut, eWsum, eIn, eOut, eW, List.cons_append, List.nil_append, hc] at h1 ⊢
      linarith
    | del c =>
      have h1 : lev cfg (c :: sIn s) (sOut s) ≤ hc cfg + lev cfg (sIn s) (sOut s) :=
        lev_le_del cfg c (sIn s) (sOut s)
      simp only [sIn, sOut, eWsum, eIn, eOut, eW, List.cons_append, List.nil_append, hc] at h1 ⊢
      linarith
    | sub x y =>
      have h1 : lev cfg (x :: sIn s) (y :: sOut s) ≤ diag cfg x y + lev cfg (sIn s) (sOut s) :=
        lev_le_diag cfg x (sIn s) y (sOut s)
      have h2 : diag cfg x y ≤ subW cfg := diag_le_subW cfg x y
      simp only [sIn, sOut, eWsum, eIn, eOut, eW, List.cons_append, List.nil_append, subW] at h1 h2 ⊢
      linarith

end ET

namespace ET

/-- The recursive value is achieved by some lattice path whenever every
symbol of both strings is in the alphabet. -/
theorem levF_achieve (cfg : Cfg) : ∀ (n : Nat) (a b : List Char),
    a.length + b.length ≤ n →
    (∀ c ∈ a, c ∈ cfg.alphabet) → (∀ c ∈ b, c ∈ cfg.alphabet) →
    ∃ s, sIn s = a ∧ sOut s = b ∧ (∀ e ∈ s, editOk cfg.alphabet e) ∧
      eWsum cfg s = levF cfg n a b := by
  intro n
  induction n with
  | zero =>
    intro a b h _ _
    have ha : a = [] := by
      cases a with
      | nil => rfl
      | cons x as => simp [List.length_cons] at h
    have hb : b = [] := by
      cases b with
      | nil => rfl
      | cons y bs => simp [List.length_cons] at h
    subst ha; subst hb
    exact ⟨[], rfl, rfl, by simp, by simp [eWsum, levF]⟩
  | succ n ih =>
    intro a b h ha hb
    cases a with
    | nil =>
      cases b with
      | nil => exact ⟨[], rfl, rfl, by simp, by simp [eWsum, levF]⟩
      | cons y bs =>
        obtain ⟨s, h1, h2, h3, h4⟩ := ih [] bs
          (by simp only [List.length_cons, List.length_nil] at h ⊢; omega)
          ha (fun c hcm => hb c (List.mem_cons_of_mem _ hcm))
        refine ⟨.ins y :: s, ?_, ?_, ?_, ?_⟩
        · simp [sIn, eIn, h1]
        · simp [sOut, eOut, h2]
        · intro e he
          rcases List.mem_cons.mp he with rfl | he
          · exact hb y (List.mem_cons_self _ _)
          · exact h3 e he
        · simp only [eWsum, eW, levF, hc, h4]
    | cons x as =>
      cases b with
      | nil =>
        obtain ⟨s, h1, h2, h3, h4⟩ := ih as []
          (by simp only [List.length_cons, List.length_nil] at h ⊢; omega)
          (fun c hcm => ha c (List.mem_cons_of_mem _ hcm)) hb
        refine ⟨.del x :: s, ?_, ?_, ?_, ?_⟩
        · simp [sIn, eIn, h1]
        · simp [sOut, eOut, h2]
        · intro e he
          rcases List.mem_cons.mp he with rfl | he
          · exact ha x (List.mem_cons_self _ _)
          · exact h3 e he
        · simp only [eWsum, eW, levF, hc, h4]
          ring
      | cons y bs =>
        have hxa : x ∈ cfg.alphabet := ha x (List.mem_cons_self _ _)
        have hya : y ∈ cfg.alphabet := hb y (List.mem_cons_self _ _)
        have ha' : ∀ c ∈ as, c ∈ cfg.alphabet :=
          fun c hcm => ha c (List.mem_cons_of_mem _ hcm)
        have hb' : ∀ c ∈ bs, c ∈ cfg.alphabet :=
          fun c hcm => hb c (List.mem_cons_of_mem _ hcm)
        simp only [List.length_cons] at h
        have hlev : levF cfg (n + 1) (x :: as) (y :: bs) =
            min (min (hc cfg + levF cfg n as (y :: bs)) (hc cfg + levF cfg n (x :: as) bs))
                (diag cfg x y + levF cfg n as bs) := by
          simp only [levF]
        rcases min_cases (min (hc cfg + levF cfg n as (y :: bs))
            (hc cfg + levF cfg n (x :: as) bs))
            (diag cfg x y + levF cfg n as bs) with ⟨hmin, _⟩ | ⟨hmin, _⟩
        · rcases min_cases (hc cfg + levF cfg n as (y :: bs))
              (hc cfg + levF cfg n (x :: as) bs) with ⟨hmin2, _⟩ | ⟨hmin2, _⟩
          · obtain ⟨s, h1, h2, h3, h4⟩ := ih as (y :: bs)
              (by simp only [List.length_cons]; omega) ha' hb
            refine ⟨.del x :: s, by simp [sIn, eIn, h1], by simp [sOut, eOut, h2], ?_, ?_⟩
            · intro e he
              rcases List.mem_cons.mp he with rfl | he
              · exact hxa
              · exact h3 e he
            · rw [hlev, hmin, hmin2]
              simp only [eWsum, eW, hc, h4]
              ring
          · obtain ⟨s, h1, h2, h3, h4⟩ := ih (x :: as) bs
              (by simp only [List.length_cons]; omega) ha hb'
            refine ⟨.ins y :: s, by simp [sIn, eIn, h1], by simp [sOut, eOut, h2], ?_, ?_⟩
            · intro e he
              rcases List.mem_cons.mp he with rfl | he
              · exact hya
              · exact h3 e he
            · rw [hlev, hmin, hmin2]
              simp only [eWsum, eW, hc, h4]
        · obtain ⟨s, h1, h2, h3, h4⟩ := ih as bs (by omega) ha' hb'
          by_cases hxy : x = y
          · subst hxy
            rcases min_cases (0 : ℚ) (subW cfg) with ⟨hmin2, _⟩ | ⟨hmin2, _⟩
            · refine ⟨.mtch x :: s, by simp [sIn, eIn, h1], by simp [sOut, eOut, h2], ?_, ?_⟩
              · intro e he
                rcases List.mem_cons.mp he with rfl | he
                · exact hxa
                · exact h3 e he
              · rw [hlev, hmin]
                simp only [diag, if_pos rfl, hmin2]
                simp only [eWsum, eW, h4]
                simp
            · refine ⟨.sub x x :: s, by simp [sIn, eIn, h1], by simp [sOut, eOut, h2], ?_, ?_⟩
              · intro e he
                rcases List.mem_cons.mp he with rfl | he
                · exact ⟨hxa, hxa⟩
                · exact h3 e he
              · rw [hlev, hmin]
                simp only [diag, if_pos rfl, hmin2]
                simp only [eWsum, eW, subW, h4]
                simp
          · refine ⟨.sub x y :: s, by simp [sIn, eIn, h1], by simp [sOut, eOut, h2], ?_, ?_⟩
            · intro e he
              rcases List.mem_cons.mp he with rfl | he
              · exact ⟨hxa, hya⟩
              · exact h3 e he
            · rw [hlev, hmin]
              simp only [diag, if_neg hxy]
              simp only [eWsum, eW, subW, h4]

/-- Specialization of `levF_achieve` to the exact fuel. -/
theorem lev_achieve (cfg : Cfg) (a b : List Char)
    (ha : ∀ c ∈ a, c ∈ cfg.alphabet) (hb : ∀ c ∈ b, c ∈ cfg.alphabet) :
    ∃ s, sIn s = a ∧ sOut s = b ∧ (∀ e ∈ s, editOk cfg.alphabet e) ∧
      eWsum cfg s = lev cfg a b :=
  levF_achieve cfg (a.length + b.length) a b (le_refl _) ha hb

end ET

namespace ET

/-! ## Characterization of `distance` -/

theorem mem_alphabet_of_mem_sIn {cfg : Cfg} {c : Char} : ∀ {s : List Edit},
    (∀ e ∈ s, editOk cfg.alphabet e) → c ∈ sIn s → c ∈ cfg.alphabet := by
  intro s
  induction s with
  | nil => intro _ hcm; simp [sIn] at hcm
  | cons e s ih =>
    intro hok hcm
    have he := hok e (List.mem_cons_self _ _)
    have ht : ∀ x ∈ s, editOk cfg.alphabet x :=
      fun x hx => hok x (List.mem_cons_of_mem _ hx)
    simp only [sIn, List.mem_append] at hcm
    rcases hcm with hcm | hcm
    · cases e with
      | mtch c0 => simp only [eIn, List.mem_singleton] at hcm; subst hcm; exact he
      | ins c0 => simp [eIn] at hcm
      | del c0 => simp only [eIn, List.mem_singleton] at hcm; subst hcm; exact he
      | sub a0 b0 => simp only [eIn, List.mem_singleton] at hcm; subst hcm; exact he.1
    · exact ih ht hcm

theorem mem_alphabet_of_mem_sOut {cfg : Cfg} {c : Char} : ∀ {s : List Edit},
    (∀ e ∈ s, editOk cfg.alphabet e) → c ∈ sOut s → c ∈ cfg.alphabet := by
  intro s
  induction s with
  | nil => intro _ hcm; simp [sOut] at hcm
  | cons e s ih =>
    intro hok hcm
    have he := hok e (List.mem_cons_self _ _)
    have ht : ∀ x ∈ s, editOk cfg.alphabet x :=
      fun x hx => hok x (List.mem_cons_of_mem _ hx)
    simp only [sOut, List.mem_append] at hcm
    rcases hcm with hcm | hcm
    · cases e with
      | mtch c0 => simp only [eOut, List.mem_singleton] at hcm; subst hcm; exact he
      | ins c0 => simp only [eOut, List.mem_singleton] at hcm; subst hcm; exact he
      | del c0 => simp [eOut] at hcm
      | sub a0 b0 => simp only [eOut, List.mem_singleton] at hcm; subst hcm; exact he.2
    · exact ih ht hcm

theorem distance_eq_some {cfg : Cfg} {a b : List Char}
    (ha : ∀ c ∈ a, c ∈ cfg.alphabet) (hb : ∀ c ∈ b, c ∈ cfg.alphabet) :
    distance cfg a b = some (lev cfg a b) := by
  obtain ⟨s0, h1, h2, h3, h4⟩ := lev_achieve cfg a b ha hb
  unfold distance
  apply listMin_eq_some_of
  · rw [List.mem_map]
    exact ⟨s0, mem_validScripts.mpr
      ⟨h1, h2, fun e he => mem_editChoices.mpr (h3 e he)⟩, h4⟩
  · intro x hx
    rw [List.mem_map] at hx
    obtain ⟨s, hs, rfl⟩ := hx
    rcases mem_validScripts.mp hs with ⟨hin, hout, _⟩
    have hlb := lev_lb cfg s
    rw [hin, hout] at hlb
    exact hlb

theorem validScripts_eq_nil {cfg : Cfg} {a b : List Char}
    (h : ¬((∀ c ∈ a, c ∈ cfg.alphabet) ∧ ∀ c ∈ b, c ∈ cfg.alphabet)) :
    validScripts cfg a b = [] := by
  rw [List.eq_nil_iff_forall_not_mem]
  intro s hs
  rcases mem_validScripts.mp hs with ⟨hin, hout, hok⟩
  have hok' : ∀ e ∈ s, editOk cfg.alphabet e :=
    fun e he => mem_editChoices.mp (hok e he)
  apply h
  constructor
  · intro c hcm
    exact mem_alphabet_of_mem_sIn hok' (hin ▸ hcm)
  · intro c hcm
    exact mem_alphabet_of_mem_sOut hok' (hout ▸ hcm)

theorem distance_eq_none {cfg : Cfg} {a b : List Char}
    (h : ¬((∀ c ∈ a, c ∈ cfg.alphabet) ∧ ∀ c ∈ b, c ∈ cfg.alphabet)) :
    distance cfg a b = none := by
  unfold distance
  rw [validScripts_eq_nil h]
  rfl

theorem distance_eq_none_iff (cfg : Cfg) (a b : List Char) :
    distance cfg a b = none ↔
      ¬((∀ c ∈ a, c ∈ cfg.alphabet) ∧ ∀ c ∈ b, c ∈ cfg.alphabet) := by
  constructor
  · intro h hcontra
    rw [distance_eq_some hcontra.1 hcontra.2] at h
    exact Option.noConfusion h
  · exact distance_eq_none

/-! ## The iterative dynamic program computes the recursive value -/

theorem map_suffList_headD (f : List Char → ℚ) :
    ∀ bs : List Char, ((suffList bs).map f).headD 0 = f bs := by
  intro bs
  cases bs <;> simp [suffList]

theorem baseRow_eq (cfg : Cfg) : ∀ b : List Char,
    baseRow cfg b = (suffList b).map (lev cfg []) := by
  intro b
  induction b with
  | nil => simp [baseRow, suffList, lev_nil_nil]
  | cons y bs ih =>
    simp only [baseRow, suffList, List.map_cons, ih, map_suffList_headD]
    rw [lev_nil_cons]

theorem nextRow_eq (cfg : Cfg) (a : Char) : ∀ (b as : List Char),
    nextRow cfg a b ((suffList b).map (lev cfg as)) = (suffList b).map (lev cfg (a :: as)) := by
  intro b
  induction b with
  | nil =>
    intro as
    simp [nextRow, suffList, lev_cons_nil]
  | cons y bs ih =>
    intro as
    simp only [suffList, List.map_cons]
    simp only [nextRow, List.tail_cons, List.headD_cons, ih, map_suffList_headD]
    rw [← lev_cons_cons]

theorem levRows_eq (cfg : Cfg) : ∀ a b : List Char,
    levRows cfg a b = (suffList b).map (lev cfg a) := by
  intro a
  induction a with
  | nil => intro b; simp [levRows, baseRow_eq]
  | cons x as ih =>
    intro b
    simp only [levRows, ih, nextRow_eq]

theorem levTop_eq (cfg : Cfg) (a b : List Char) : levTop cfg a b = lev cfg a b := by
  unfold levTop
  rw [levRows_eq, map_suffList_headD]

theorem distance_eq_distEval (cfg : Cfg) (a b : List Char) :
    distance cfg a b = distEval cfg a b := by
  unfold distEval
  by_cases hall : ((a.all fun c => decide (c ∈ cfg.alphabet)) &&
      (b.all fun c => decide (c ∈ cfg.alphabet))) = true
  · rw [if_pos hall]
    rw [Bool.and_eq_true] at hall
    have ha : ∀ c ∈ a, c ∈ cfg.alphabet :=
      fun c hcm => of_decide_eq_true (List.all_eq_true.mp hall.1 c hcm)
    have hb : ∀ c ∈ b, c ∈ cfg.alphabet :=
      fun c hcm => of_decide_eq_true (List.all_eq_true.mp hall.2 c hcm)
    rw [distance_eq_some ha hb, levTop_eq]
  · rw [if_neg hall]
    apply distance_eq_none
    intro hcontra
    apply hall
    rw [Bool.and_eq_true]
    exact ⟨List.all_eq_true.mpr fun c hcm => decide_eq_true (hcontra.1 c hcm),
           List.all_eq_true.mpr fun c hcm => decide_eq_true (hcontra.2 c hcm)⟩

end ET

namespace ET

/-! ## The Levenshtein-automaton lattice -/

theorem mem_queryPairs {cfg : Cfg} {q w : List Char} {s : List Edit} :
    ∀ {lex : List (List Char)},
    (s, w) ∈ queryPairs cfg lex q ↔ w ∈ lex ∧ s ∈ validScripts cfg q w := by
  intro lex
  induction lex with
  | nil => simp [queryPairs]
  | cons v ws ih =>
    simp only [queryPairs, List.mem_append, List.mem_map, ih, List.mem_cons,
      Prod.mk.injEq]
    constructor
    · rintro (⟨s', hs', rfl, rfl⟩ | ⟨hw, hs⟩)
      · exact ⟨Or.inl rfl, hs'⟩
      · exact ⟨Or.inr hw, hs⟩
    · rintro ⟨rfl | hw, hs⟩
      · exact Or.inl ⟨s, hs, rfl, rfl⟩
      · exact Or.inr ⟨hw, hs⟩

theorem distance_none_iff_scripts (cfg : Cfg) (a b : List Char) :
    distance cfg a b = none ↔ validScripts cfg a b = [] := by
  unfold distance
  rw [listMin_eq_none_iff, List.map_eq_nil_iff]

theorem queryMin_eq_bestDist (cfg : Cfg) (lex : List (List Char)) (q : List Char) :
    queryMin cfg lex q = bestDist cfg lex q := by
  cases hq : queryMin cfg lex q with
  | none =>
    have hqp : (queryPairs cfg lex q).map (fun pr => eWsum cfg pr.1) = [] :=
      (listMin_eq_none_iff _).mp hq
    rw [List.map_eq_nil_iff] at hqp
    symm
    rw [bestDist, listMin_eq_none_iff, List.filterMap_eq_nil_iff]
    intro w hw
    rw [distance_none_iff_scripts]
    rw [List.eq_nil_iff_forall_not_mem]
    intro s hs
    have hmem : (s, w) ∈ queryPairs cfg lex q := mem_queryPairs.mpr ⟨hw, hs⟩
    rw [hqp] at hmem
    simp at hmem
  | some m =>
    have hmem := listMin_mem hq
    have hle := listMin_le hq
    rw [List.mem_map] at hmem
    obtain ⟨⟨s, w⟩, hpr, hws⟩ := hmem
    rcases mem_queryPairs.mp hpr with ⟨hwlex, hsv⟩
    symm
    rw [bestDist]
    apply listMin_eq_some_of
    · rw [List.mem_filterMap]
      refine ⟨w, hwlex, ?_⟩
      apply listMin_eq_some_of
      · rw [List.mem_map]
        exact ⟨s, hsv, hws⟩
      · intro x hx
        rw [List.mem_map] at hx
        obtain ⟨s', hs', rfl⟩ := hx
        exact hle _ (List.mem_map.mpr ⟨(s', w), mem_queryPairs.mpr ⟨hwlex, hs'⟩, rfl⟩)
    · intro x hx
      rw [List.mem_filterMap] at hx
      obtain ⟨v, hv, hdist⟩ := hx
      have hxmem := listMin_mem hdist
      rw [List.mem_map] at hxmem
      obtain ⟨s'', hs'', hxe⟩ := hxmem
      exact hxe ▸ hle _ (List.mem_map.mpr ⟨(s'', v), mem_queryPairs.mpr ⟨hv, hs''⟩, rfl⟩)

theorem mem_closestMatches {cfg : Cfg} {lex : List (List Char)} {q w : List Char} :
    w ∈ closestMatches cfg lex q ↔
      w ∈ lex ∧ ∃ d, queryMin cfg lex q = some d ∧ distance cfg q w = some d := by
  unfold closestMatches
  rw [List.mem_dedup, List.mem_map]
  constructor
  · rintro ⟨⟨s, w'⟩, hpr, rfl⟩
    rw [List.mem_filter] at hpr
    obtain ⟨hmem, hcond⟩ := hpr
    rw [decide_eq_true_eq] at hcond
    rcases mem_queryPairs.mp hmem with ⟨hwlex, hsv⟩
    refine ⟨hwlex, eWsum cfg s, hcond.symm, ?_⟩
    apply listMin_eq_some_of
    · rw [List.mem_map]
      exact ⟨s, hsv, rfl⟩
    · intro x hx
      rw [List.mem_map] at hx
      obtain ⟨s', hs', rfl⟩ := hx
      have hle := listMin_le hcond.symm
      exact hle _ (List.mem_map.mpr ⟨(s', w'), mem_queryPairs.mpr ⟨hwlex, hs'⟩, rfl⟩)
  · rintro ⟨hwlex, d, hqm, hdist⟩
    have hdm := listMin_mem hdist
    rw [List.mem_map] at hdm
    obtain ⟨s, hs, hcost⟩ := hdm
    refine ⟨(s, w), ?_, rfl⟩
    rw [List.mem_filter]
    refine ⟨mem_queryPairs.mpr ⟨hwlex, hs⟩, ?_⟩
    rw [decide_eq_true_eq, hcost, hqm]

theorem queryMin_perm {cfg : Cfg} {q : List Char} {lex lex' : List (List Char)}
    (h : lex.Perm lex') : queryMin cfg lex q = queryMin cfg lex' q := by
  rw [queryMin_eq_bestDist, queryMin_eq_bestDist]
  unfold bestDist
  exact listMin_perm (h.filterMap _)

theorem bestDist_eq_eval (cfg : Cfg) (lex : List (List Char)) (q : List Char) :
    bestDist cfg lex q = bestDistEval cfg lex q := by
  unfold bestDist bestDistEval
  simp only [distance_eq_distEval]

theorem mem_closestMatchesEval {cfg : Cfg} {lex : List (List Char)} {q w : List Char} :
    w ∈ closestMatchesEval cfg lex q ↔
      w ∈ lex ∧ ∃ d, bestDistEval cfg lex q = some d ∧ distEval cfg q w = some d := by
  unfold closestMatchesEval
  rw [List.mem_dedup, List.mem_filter, decide_eq_true_eq]
  constructor
  · rintro ⟨hw, heq, hsome⟩
    rw [Option.isSome_iff_exists] at hsome
    obtain ⟨d, hd⟩ := hsome
    exact ⟨hw, d, hd, heq ▸ hd⟩
  · rintro ⟨hw, d, hbd, hde⟩
    refine ⟨hw, by rw [hde, hbd], by rw [hbd]; rfl⟩

theorem closestMatches_eq_eval {cfg : Cfg} {lex : List (List Char)} {q w : List Char} :
    w ∈ closestMatches cfg lex q ↔ w ∈ closestMatchesEval cfg lex q := by
  rw [mem_closestMatches, mem_closestMatchesEval, queryMin_eq_bestDist,
      bestDist_eq_eval]
  simp only [distance_eq_distEval]

end ET

namespace ET

/-! ## Symmetry of the lattice -/

theorem sIn_map_transp : ∀ s : List Edit, sIn (s.map transp) = sOut s := by
  intro s
  induction s with
  | nil => rfl
  | cons e s ih => cases e <;> simp [transp, sIn, sOut, eIn, eOut, ih]

theorem sOut_map_transp : ∀ s : List Edit, sOut (s.map transp) = sIn s := by
  intro s
  induction s with
  | nil => rfl
  | cons e s ih => cases e <;> simp [transp, sIn, sOut, eIn, eOut, ih]

theorem eWsum_map_transp (cfg : Cfg) : ∀ s : List Edit,
    eWsum cfg (s.map transp) = eWsum cfg s := by
  intro s
  induction s with
  | nil => rfl
  | cons e s ih =>
    cases e <;> simp only [transp, List.map_cons, eWsum, eW, ih] <;> ring

theorem editOk_transp {alpha : List Char} : ∀ e : Edit,
    editOk alpha e → editOk alpha (transp e) := by
  intro e h
  cases e with
  | mtch c => exact h
  | ins c => exact h
  | del c => exact h
  | sub a b => exact ⟨h.2, h.1⟩

/-- The lattice's minimum weight is symmetric in its two strings for every
configuration: a composed insertion and a composed deletion carry the same
total weight `ins/2 + del/2`, because the `relabel_pairs` swap exchanges the
tag labels while each half-weight stays on its original arc. -/
theorem distance_symm (cfg : Cfg) (a b : List Char) :
    distance cfg a b = distance cfg b a := by
  cases hq : distance cfg a b with
  | none =>
    symm
    rw [distance_eq_none_iff] at hq ⊢
    intro hcontra
    exact hq ⟨hcontra.2, hcontra.1⟩
  | some m =>
    have hmem := listMin_mem hq
    have hle := listMin_le hq
    rw [List.mem_map] at hmem
    obtain ⟨s, hs, hcost⟩ := hmem
    rcases mem_validScripts.mp hs with ⟨hin, hout, hok⟩
    symm
    apply listMin_eq_some_of
    · rw [List.mem_map]
      refine ⟨s.map transp, mem_validScripts.mpr ⟨?_, ?_, ?_⟩, ?_⟩
      · rw [sIn_map_transp, hout]
      · rw [sOut_map_transp, hin]
      · intro e he
        rw [List.mem_map] at he
        obtain ⟨e0, he0, rfl⟩ := he
        exact mem_editChoices.mpr (editOk_transp e0 (mem_editChoices.mp (hok e0 he0)))
      · rw [eWsum_map_transp]
        exact hcost
    · intro x hx
      rw [List.mem_map] at hx
      obtain ⟨s', hs', rfl⟩ := hx
      rcases mem_validScripts.mp hs' with ⟨hin', hout', hok'⟩
      have hmem' : s'.map transp ∈ validScripts cfg a b := by
        refine mem_validScripts.mpr ⟨?_, ?_, ?_⟩
        · rw [sIn_map_transp, hout']
        · rw [sOut_map_transp, hin']
        · intro e he
          rw [List.mem_map] at he
          obtain ⟨e0, he0, rfl⟩ := he
          exact mem_editChoices.mpr (editOk_transp e0 (mem_editChoices.mp (hok' e0 he0)))
      have := hle _ (List.mem_map.mpr ⟨s'.map transp, hmem', rfl⟩)
      rw [eWsum_map_transp] at this
      exact this

/-! ## Weight bounds and arc counting -/

theorem eW_nonneg {cfg : Cfg} (hi : 0 ≤ cfg.ins) (hd : 0 ≤ cfg.del)
    (hs : 0 ≤ cfg.sub) : ∀ e : Edit, 0 ≤ eW cfg e := by
  intro e
  cases e <;> simp only [eW] <;> linarith

theorem eWsum_nonneg {cfg : Cfg} (hi : 0 ≤ cfg.ins) (hd : 0 ≤ cfg.del)
    (hs : 0 ≤ cfg.sub) : ∀ s : List Edit, 0 ≤ eWsum cfg s := by
  intro s
  induction s with
  | nil => simp [eWsum]
  | cons e s ih => exact add_nonneg (eW_nonneg hi hd hs e) ih

theorem eW_le_sum {cfg : Cfg} (hi : 0 ≤ cfg.ins) (hd : 0 ≤ cfg.del)
    (hs : 0 ≤ cfg.sub) {e : Edit} : ∀ {s : List Edit}, e ∈ s →
    eW cfg e ≤ eWsum cfg s := by
  intro s
  induction s with
  | nil => intro h; simp at h
  | cons x s ih =>
    intro h
    rcases List.mem_cons.mp h with rfl | h
    · have h0 := eWsum_nonneg hi hd hs s
      simp only [eWsum]
      linarith
    · have h0 := eW_nonneg hi hd hs x
      have h1 := ih h
      simp only [eWsum]
      linarith

theorem two_mem_le_sum {cfg : Cfg} (hi : 0 ≤ cfg.ins) (hd : 0 ≤ cfg.del)
    (hs : 0 ≤ cfg.sub) {e₁ e₂ : Edit} (hne : e₁ ≠ e₂) : ∀ {s : List Edit},
    e₁ ∈ s → e₂ ∈ s → eW cfg e₁ + eW cfg e₂ ≤ eWsum cfg s := by
  intro s
  induction s with
  | nil => intro h; simp at h
  | cons x s ih =>
    intro h1 h2
    rcases List.mem_cons.mp h1 with rfl | hA
    · have hB : e₂ ∈ s := by
        rcases List.mem_cons.mp h2 with heq | hB
        · exact absurd heq.symm hne
        · exact hB
      have hW := eW_le_sum hi hd hs hB
      simp only [eWsum]
      linarith
    · rcases List.mem_cons.mp h2 with rfl | hB
      · have hW := eW_le_sum hi hd hs hA
        simp only [eWsum]
        linarith
      · have hW := ih hA hB
        have hx := eW_nonneg hi hd hs x
        simp only [eWsum]
        linarith

theorem length_sIn : ∀ s : List Edit,
    (sIn s).length = s.countP isMtch + s.countP isDel + s.countP isSub := by
  intro s
  induction s with
  | nil => simp [sIn]
  | cons e s ih =>
    cases e <;>
      simp [sIn, eIn, List.countP_cons, isMtch, isDel, isSub, ih] <;> omega

theorem length_sOut : ∀ s : List Edit,
    (sOut s).length = s.countP isMtch + s.countP isIns + s.countP isSub := by
  intro s
  induction s with
  | nil => simp [sOut]
  | cons e s ih =>
    cases e <;>
      simp [sOut, eOut, List.countP_cons, isMtch, isIns, isSub, ih] <;> omega

theorem all_mtch_sIn_eq_sOut : ∀ {s : List Edit},
    (∀ e ∈ s, isMtch e = true) → sIn s = sOut s := by
  intro s
  induction s with
  | nil => intro _; rfl
  | cons e s ih =>
    intro h
    have he := h e (List.mem_cons_self _ _)
    have ht := fun x hx => h x (List.mem_cons_of_mem _ hx)
    cases e with
    | mtch c => simp [sIn, sOut, eIn, eOut, ih ht]
    | ins c => simp [isMtch] at he
    | del c => simp [isMtch] at he
    | sub a b => simp [isMtch] at he

end ET

namespace ET

/-! ## One-substitution pairs -/

theorem sIn_map_mtch : ∀ l : List Char, sIn (l.map Edit.mtch) = l := by
  intro l
  induction l with
  | nil => rfl
  | cons c l ih => simp [sIn, eIn, ih]

theorem sOut_map_mtch : ∀ l : List Char, sOut (l.map Edit.mtch) = l := by
  intro l
  induction l with
  | nil => rfl
  | cons c l ih => simp [sOut, eOut, ih]

theorem eWsum_map_mtch (cfg : Cfg) : ∀ l : List Char,
    eWsum cfg (l.map Edit.mtch) = 0 := by
  intro l
  induction l with
  | nil => rfl
  | cons c l ih => simp [eWsum, eW, ih]

/-- Every lattice path between equal-length distinct strings weighs at least
`min sub (ins + del)`: a path with a substitution arc weighs at least `sub`;
a substitution-free path between equal-length strings has as many insertions
as deletions, and if it has any it weighs at least
`(ins/2 + del/2) + (del/2 + ins/2) = ins + del`; otherwise it is all identity
arcs and the strings are equal. -/
theorem script_lb {cfg : Cfg} (hi : 0 ≤ cfg.ins) (hd : 0 ≤ cfg.del)
    (hsv : 0 ≤ cfg.sub) {s : List Edit}
    (hlen : (sIn s).length = (sOut s).length) (hne : sIn s ≠ sOut s) :
    min cfg.sub (cfg.ins + cfg.del) ≤ eWsum cfg s := by
  by_cases hsub : ∃ e ∈ s, isSub e = true
  · obtain ⟨e, he, hse⟩ := hsub
    have hW := eW_le_sum hi hd hsv he
    cases e with
    | mtch c => simp [isSub] at hse
    | ins c => simp [isSub] at hse
    | del c => simp [isSub] at hse
    | sub a b =>
      have h1 : min cfg.sub (cfg.ins + cfg.del) ≤ cfg.sub := min_le_left _ _
      have h2 : eW cfg (.sub a b) = cfg.sub := by
        simp only [eW]
        ring
      linarith
  · have hcsub : s.countP isSub = 0 := by
      rw [List.countP_eq_zero]
      intro a ha
      exact fun hcon => hsub ⟨a, ha, hcon⟩
    have hstat := length_sIn s
    have hstat2 := length_sOut s
    by_cases hins : ∃ e ∈ s, isIns e = true
    · obtain ⟨e₁, he₁, hie⟩ := hins
      have hpos : 0 < s.countP isIns := List.countP_pos_iff.mpr ⟨e₁, he₁, hie⟩
      have hdelpos : 0 < s.countP isDel := by omega
      obtain ⟨e₂, he₂, hde⟩ := List.countP_pos_iff.mp hdelpos
      have hne12 : e₁ ≠ e₂ := by
        intro h
        subst h
        cases e₁ <;> simp [isIns, isDel] at hie hde
      have hW := two_mem_le_sum hi hd hsv hne12 he₁ he₂
      cases e₁ with
      | mtch c => simp [isIns] at hie
      | del c => simp [isIns] at hie
      | sub a b => simp [isIns] at hie
      | ins c₁ =>
        cases e₂ with
        | mtch c => simp [isDel] at hde
        | ins c => simp [isDel] at hde
        | sub a b => simp [isDel] at hde
        | del c₂ =>
          have h1 : min cfg.sub (cfg.ins + cfg.del) ≤ cfg.ins + cfg.del :=
            min_le_right _ _
          have h2 : eW cfg (.ins c₁) + eW cfg (.del c₂) = cfg.ins + cfg.del := by
            simp only [eW]
            ring
          linarith
    · have hcins : s.countP isIns = 0 := by
        rw [List.countP_eq_zero]
        intro a ha
        exact fun hcon => hins ⟨a, ha, hcon⟩
      have hcdel : s.countP isDel = 0 := by omega
      have hallm : ∀ e ∈ s, isMtch e = true := by
        intro e he
        have hnotsub : ¬isSub e = true := fun hcon => hsub ⟨e, he, hcon⟩
        have hnotins : ¬isIns e = true := fun hcon => hins ⟨e, he, hcon⟩
        have hnotdel : ¬isDel e = true := by
          rw [List.countP_eq_zero] at hcdel
          exact hcdel e he
        cases e with
        | mtch c => rfl
        | ins c => exact absurd rfl hnotins
        | del c => exact absurd rfl hnotdel
        | sub a b => exact absurd rfl hnotsub
      exact absurd (all_mtch_sIn_eq_sOut hallm) hne

/-- Distance between equal-length strings differing at exactly one position:
the better of a single substitution arc (`sub`) and a deletion plus an
insertion (whose composed arcs weigh `ins + del` together). -/
theorem distance_one_sub (cfg : Cfg) (p s : List Char) (x y : Char)
    (hi : 0 ≤ cfg.ins) (hd : 0 ≤ cfg.del) (hsv : 0 ≤ cfg.sub)
    (hne : x ≠ y) (hx : x ∈ cfg.alphabet) (hy : y ∈ cfg.alphabet)
    (hp : ∀ c ∈ p, c ∈ cfg.alphabet) (hsf : ∀ c ∈ s, c ∈ cfg.alphabet) :
    distance cfg (p ++ x :: s) (p ++ y :: s) =
      some (min cfg.sub (cfg.ins + cfg.del)) := by
  have hokp : ∀ e ∈ p.map Edit.mtch, e ∈ editChoices cfg.alphabet := by
    intro e he
    rw [List.mem_map] at he
    obtain ⟨c, hcm, rfl⟩ := he
    exact mem_editChoices.mpr (hp c hcm)
  have hoks : ∀ e ∈ s.map Edit.mtch, e ∈ editChoices cfg.alphabet := by
    intro e he
    rw [List.mem_map] at he
    obtain ⟨c, hcm, rfl⟩ := he
    exact mem_editChoices.mpr (hsf c hcm)
  apply listMin_eq_some_of
  · rw [List.mem_map]
    by_cases hcase : cfg.sub ≤ cfg.ins + cfg.del
    · refine ⟨p.map .mtch ++ (.sub x y :: s.map .mtch), mem_validScripts.mpr
        ⟨?_, ?_, ?_⟩, ?_⟩
      · rw [sIn_append, sIn_map_mtch]
        simp [sIn, eIn, sIn_map_mtch]
      · rw [sOut_append, sOut_map_mtch]
        simp [sOut, eOut, sOut_map_mtch]
      · intro e he
        rcases List.mem_append.mp he with he | he
        · exact hokp e he
        · rcases List.mem_cons.mp he with rfl | he
          · exact mem_editChoices.mpr ⟨hx, hy⟩
          · exact hoks e he
      · rw [eWsum_append, eWsum_map_mtch, min_eq_left hcase]
        simp only [eWsum, eW, eWsum_map_mtch]
        ring
    · refine ⟨p.map .mtch ++ (.del x :: .ins y :: s.map .mtch), mem_validScripts.mpr
        ⟨?_, ?_, ?_⟩, ?_⟩
      · rw [sIn_append, sIn_map_mtch]
        simp [sIn, eIn, sIn_map_mtch]
      · rw [sOut_append, sOut_map_mtch]
        simp [sOut, eOut, sOut_map_mtch]
      · intro e he
        rcases List.mem_append.mp he with he | he
        · exact hokp e he
        · rcases List.mem_cons.mp he with rfl | he
          · exact mem_editChoices.mpr hx
          · rcases List.mem_cons.mp he with rfl | he
            · exact mem_editChoices.mpr hy
            · exact hoks e he
      · rw [eWsum_append, eWsum_map_mtch, min_eq_right (le_of_not_le hcase)]
        simp only [eWsum, eW, eWsum_map_mtch]
        ring
  · intro t ht
    rw [List.mem_map] at ht
    obtain ⟨s', hs', rfl⟩ := ht
    rcases mem_validScripts.mp hs' with ⟨hin, hout, _⟩
    apply script_lb hi hd hsv
    · rw [hin, hout]
      simp
    · rw [hin, hout]
      intro hcontra
      have hx' : x :: s = y :: s := by
        exact List.append_cancel_left hcontra
      injection hx' with h1 _
      exact hne h1

end ET

namespace ET

/-! ## Claims -/

set_option maxRecDepth 1000000

/-- Claim C1: "distance(a, b) equals the exact minimum weighted edit cost
... every complete alignment path through the composed left-and-right-factor
lattice accrues each edit operation's full cost exactly once (the two
half-weights sum to the full cost)".  This is false: `relabel_pairs` swaps
the `<insert>`/`<delete>` labels of the inverted factor but each half-weight
stays on its original arc, so a composed insertion pairs the left `ins/2`
half with the right `del/2` half (and a deletion pairs `del/2` with `ins/2`).
With insert cost 0 and delete cost 2, the only accepting path of the lattice
for ("", "a") is the single composed insertion arc of weight 1, so `distance`
returns 1, while the minimum over the same alignments of the full per-operation
costs (`specDistance`) is 0. -/
theorem claim_C1_full_cost_not_accrued :
    lW bugCfg LOp.ins = 0 ∧ rW bugCfg (ROp.insOut 'a') = 1 ∧
    eW bugCfg (Edit.ins 'a') = 1 ∧ specW bugCfg (Edit.ins 'a') = 0 ∧
    distance bugCfg [] ['a'] = some 1 ∧
    specDistance bugCfg [] ['a'] = some 0 := by
  with_unfolding_all decide

/-- Claim C2: every output string of a minimum-weight accepting path of the
Levenshtein-automaton lattice is a member of the lexicon, and its distance
from the query equals the minimum of `distance q w` over the lexicon (any
entry with a defined distance costs at least as much). -/
theorem claim_C2_closest_match (cfg : Cfg) (lex : List (List Char)) (q w : List Char)
    (s : List Edit) (hmem : (s, w) ∈ queryPairs cfg lex q)
    (hmin : some (eWsum cfg s) = queryMin cfg lex q) :
    w ∈ lex ∧ distance cfg q w = queryMin cfg lex q ∧
      ∀ v ∈ lex, ∀ d : ℚ, distance cfg q v = some d → eWsum cfg s ≤ d := by
  rcases mem_queryPairs.mp hmem with ⟨hwlex, hsv⟩
  have hle := listMin_le hmin.symm
  refine ⟨hwlex, ?_, ?_⟩
  · rw [← hmin]
    apply listMin_eq_some_of
    · rw [List.mem_map]
      exact ⟨s, hsv, rfl⟩
    · intro x hx
      rw [List.mem_map] at hx
      obtain ⟨s', hs', rfl⟩ := hx
      exact hle _ (List.mem_map.mpr ⟨(s', w), mem_queryPairs.mpr ⟨hwlex, hs'⟩, rfl⟩)
  · intro v hv d hdist
    have hdm := listMin_mem hdist
    rw [List.mem_map] at hdm
    obtain ⟨s'', hs'', hcost⟩ := hdm
    exact hcost ▸ hle _ (List.mem_map.mpr ⟨(s'', v), mem_queryPairs.mpr ⟨hv, hs''⟩, rfl⟩)

theorem claim_C2_closest_match_witness :
    (['a'] : List Char) ∈ [(['a'] : List Char)] ∧
    distance cfgAB ['a'] ['a'] = queryMin cfgAB [['a']] ['a'] ∧
    ∀ v ∈ [(['a'] : List Char)], ∀ d : ℚ, distance cfgAB ['a'] v = some d →
      eWsum cfgAB [Edit.mtch 'a'] ≤ d :=
  claim_C2_closest_match cfgAB [['a']] ['a'] ['a'] [Edit.mtch 'a']
    (by with_unfolding_all decide) (by with_unfolding_all decide)

/-- Claim C3: `closest_matches` returns exactly the set of lexicon entries
achieving the minimum distance to the query (every tied entry appears, no
non-tied entry appears), with no duplicates even though several structurally
distinct minimum-weight paths can share an output string, independently of
the lexicon's insertion order; and for the test suite's cheese lexicon with
unit costs the query "cheese" yields exactly cheddar and cheshire. -/
theorem claim_C3_closest_matches :
    (∀ (cfg : Cfg) (lex : List (List Char)) (q w : List Char),
        w ∈ closestMatches cfg lex q ↔
          w ∈ lex ∧ ∃ d, bestDist cfg lex q = some d ∧ distance cfg q w = some d) ∧
    (∀ (cfg : Cfg) (lex : List (List Char)) (q : List Char),
        (closestMatches cfg lex q).Nodup) ∧
    (∀ (cfg : Cfg) (lex lex' : List (List Char)) (q w : List Char),
        lex.Perm lex' →
          (w ∈ closestMatches cfg lex q ↔ w ∈ closestMatches cfg lex' q)) ∧
    (∀ w, w ∈ closestMatches cheeseCfg cheeseLex ("cheese".data) ↔
        (w = "cheddar".data ∨ w = "cheshire".data)) := by
  refine ⟨?_, ?_, ?_, ?_⟩
  · intro cfg lex q w
    rw [mem_closestMatches, queryMin_eq_bestDist]
  · intro cfg lex q
    exact List.nodup_dedup _
  · intro cfg lex lex' q w h
    rw [mem_closestMatches, mem_closestMatches, queryMin_perm h, h.mem_iff]
  · intro w
    rw [closestMatches_eq_eval]
    have heval : closestMatchesEval cheeseCfg cheeseLex ("cheese".data) =
        ["cheshire".data, "cheddar".data] := by
      with_unfolding_all decide
    rw [heval]
    simp only [List.mem_cons, List.not_mem_nil, or_false]
    tauto

theorem claim_C3_closest_matches_witness :
    (['a'] : List Char) ∈ closestMatches cfgAB [['a'], ['b']] ['a'] ↔
    (['a'] : List Char) ∈ closestMatches cfgAB [['b'], ['a']] ['a'] :=
  claim_C3_closest_matches.2.2.1 cfgAB [['a'], ['b']] [['b'], ['a']] ['a'] ['a']
    (by decide)

/-- Claim C4: the lattice-empty error (the `none` of the model, raised by
`check_wellformed_lattice` exactly when the composed lattice has no start
state, i.e. no accepting path) occurs for a string pair exactly when some
symbol of either string is outside the alphabet, and for a query against the
factored lexicon exactly when no lexicon entry is reachable from the query
by any alignment; a target is reachable exactly when query and target are
both over the alphabet.  In particular, well-formed pairs never raise. -/
theorem claim_C4_lattice_empty (cfg : Cfg) (a b q w : List Char)
    (lex : List (List Char)) :
    (distance cfg a b = none ↔
      ¬((∀ c ∈ a, c ∈ cfg.alphabet) ∧ (∀ c ∈ b, c ∈ cfg.alphabet))) ∧
    (queryMin cfg lex q = none ↔ ¬∃ v ∈ lex, Reachable cfg q v) ∧
    (Reachable cfg q w ↔
      ((∀ c ∈ q, c ∈ cfg.alphabet) ∧ ∀ c ∈ w, c ∈ cfg.alphabet)) := by
  refine ⟨distance_eq_none_iff cfg a b, ?_, ?_⟩
  · rw [queryMin, listMin_eq_none_iff, List.map_eq_nil_iff]
    constructor
    · intro h hex
      obtain ⟨v, hv, s, h1, h2, h3⟩ := hex
      have hmem : (s, v) ∈ queryPairs cfg lex q :=
        mem_queryPairs.mpr ⟨hv, mem_validScripts.mpr ⟨h1, h2, h3⟩⟩
      rw [h] at hmem
      simp at hmem
    · intro h
      rw [List.eq_nil_iff_forall_not_mem]
      rintro ⟨s, v⟩ hsv
      rcases mem_queryPairs.mp hsv with ⟨hv, hs⟩
      rcases mem_validScripts.mp hs with ⟨h1, h2, h3⟩
      exact h ⟨v, hv, s, h1, h2, h3⟩
  · constructor
    · rintro ⟨s, h1, h2, h3⟩
      have hok : ∀ e ∈ s, editOk cfg.alphabet e :=
        fun e he => mem_editChoices.mp (h3 e he)
      constructor
      · intro c hcm
        exact mem_alphabet_of_mem_sIn hok (h1 ▸ hcm)
      · intro c hcm
        exact mem_alphabet_of_mem_sOut hok (h2 ▸ hcm)
    · rintro ⟨hq, hw⟩
      obtain ⟨s, h1, h2, h3, _⟩ := lev_achieve cfg q w hq hw
      exact ⟨s, h1, h2, fun e he => mem_editChoices.mpr (h3 e he)⟩

/-- Claim C5 (corrected): the constructor performs no validation at all.
There is no `ConfigError` in the source (its only error type is
`LatticeError`, line 55); negative costs are accepted silently and
construction succeeds whenever the alphabet is non-empty — the only
construction-time failure is the underlying library's rejection of
`union()` with no arguments on an empty alphabet, which is a library
`TypeError`, not a `ConfigError`. -/
theorem claim_C5_no_validation :
    ∀ (alphabet : List Char) (ic dc sc : ℚ),
      (initET alphabet ic dc sc).isSome = true ↔ alphabet ≠ [] := by
  intro alphabet ic dc sc
  unfold initET
  by_cases h : alphabet = []
  · subst h
    simp
  · simp [h]

/-- Counterexample to claim C5 as stated: constructing with negative costs
raises nothing — the transducer is built and even computes (negative)
distances, e.g. distance("a", "a") = -2 via a delete-insert path when all
three costs are -1. -/
theorem claim_C5_counterexample :
    initET ['a'] (-1) (-1) (-1) = some ⟨['a'], -1, -1, -1⟩ ∧
    (initET ['a'] (-1) (-1) (-1)).isSome = true ∧
    distance ⟨['a'], -1, -1, -1⟩ ['a'] ['a'] = some (-2) := by
  with_unfolding_all decide

/-- Claim C6: equal-length strings differing in exactly one position (written
`p ++ x :: s` versus `p ++ y :: s` with `x ≠ y`) are at distance
`substituteCost` when `substituteCost ≤ insertCost + deleteCost` and
`insertCost + deleteCost` otherwise (costs non-negative, symbols in the
alphabet). -/
theorem claim_C6_one_substitution (cfg : Cfg) (p s : List Char) (x y : Char)
    (hi : 0 ≤ cfg.ins) (hd : 0 ≤ cfg.del) (hsv : 0 ≤ cfg.sub)
    (hne : x ≠ y) (hx : x ∈ cfg.alphabet) (hy : y ∈ cfg.alphabet)
    (hp : ∀ c ∈ p, c ∈ cfg.alphabet) (hsf : ∀ c ∈ s, c ∈ cfg.alphabet) :
    distance cfg (p ++ x :: s) (p ++ y :: s) =
      some (if cfg.sub ≤ cfg.ins + cfg.del then cfg.sub else cfg.ins + cfg.del) := by
  rw [distance_one_sub cfg p s x y hi hd hsv hne hx hy hp hsf, min_def]

theorem claim_C6_one_substitution_witness :
    distance cfgAB ['a'] ['b'] = some 1 := by
  have h := claim_C6_one_substitution cfgAB [] [] 'a' 'b'
    (by with_unfolding_all decide) (by with_unfolding_all decide)
    (by with_unfolding_all decide) (by decide) (by decide) (by decide)
    (by simp) (by simp)
  simp only [List.nil_append] at h
  rw [h]
  with_unfolding_all decide

/-- Claim C7: with equal insert and delete costs the distance is symmetric.
(In this code it is symmetric for every configuration, because a composed
insertion and a composed deletion both weigh `ins/2 + del/2`.) -/
theorem claim_C7_symmetric (cfg : Cfg) (h : cfg.ins = cfg.del) (a b : List Char) :
    distance cfg a b = distance cfg b a :=
  distance_symm cfg a b

theorem claim_C7_symmetric_witness :
    distance cfgAB ['a', 'b'] ['b'] = distance cfgAB ['b'] ['a', 'b'] :=
  claim_C7_symmetric cfgAB rfl ['a', 'b'] ['b']

/-- Claim C8 (corrected): `substitute_cost` is optional, but its default is
the constant `DEFAULT_SUBSTITUTE_COST = 1` (line 52), not a value synthesized
as `insert_cost + delete_cost`. -/
theorem claim_C8_default_substitute (alphabet : List Char) (ic dc : ℚ) (cfg : Cfg)
    (h : initETdefault alphabet ic dc = some cfg) :
    cfg.sub = DEFAULT_SUBSTITUTE_COST ∧ DEFAULT_SUBSTITUTE_COST = 1 ∧
    cfg.ins = ic ∧ cfg.del = dc := by
  unfold initETdefault initET at h
  by_cases ha : alphabet = []
  · rw [if_pos ha] at h
    exact Option.noConfusion h
  · rw [if_neg ha] at h
    injection h with h
    subst h
    exact ⟨rfl, rfl, rfl, rfl⟩

theorem claim_C8_default_substitute_witness :
    (⟨['a'], 5, 5, 1⟩ : Cfg).sub = DEFAULT_SUBSTITUTE_COST ∧
    DEFAULT_SUBSTITUTE_COST = 1 ∧ (⟨['a'], 5, 5, 1⟩ : Cfg).ins = 5 ∧
    (⟨['a'], 5, 5, 1⟩ : Cfg).del = 5 :=
  claim_C8_default_substitute ['a'] 5 5 ⟨['a'], 5, 5, 1⟩ (by with_unfolding_all decide)

/-- Counterexample to claim C8 as stated: with insert and delete costs 5 and
the substitute cost omitted, the synthesized substitute cost is 1, not
5 + 5; and under the all-default configuration (costs 1, 1, 1) a
one-substitution pair has distance 1 < insert + delete = 2, so the optimal
alignment does benefit from the defaulted substitution. -/
theorem claim_C8_counterexample :
    (initETdefault ['a'] 5 5).map Cfg.sub = some 1 ∧ ¬((1 : ℚ) = 5 + 5) ∧
    distance cfgAB ['a'] ['b'] = some 1 ∧ (1 : ℚ) < cfgAB.ins + cfgAB.del := by
  with_unfolding_all decide

/-- Claim C9: every mutation performed by `distance`, `closest_match` or
`closest_matches` targets an object allocated during that same call (a
reference at or above the entry allocation counter `n`): the factors and the
factored lexicon, allocated at construction (references below `n`), are never
modified by any subsequent call, with in-place mutation confined to the
private per-call lattice (and, for `closest_match`, the fresh shortest-path
result). -/
theorem claim_C9_factors_immutable :
    ∀ n r : Nat,
      (Effect.mutate r ∈ distanceEffects n ∨
       Effect.mutate r ∈ closestMatchEffects n ∨
       Effect.mutate r ∈ closestMatchesEffects n) → n ≤ r := by
  intro n r h
  rcases h with h | h | h
  · simp [distanceEffects, createLatticeEffects] at h
  · simp [closestMatchEffects, queryLatticeEffects] at h
    omega
  · simp [closestMatchesEffects, queryLatticeEffects] at h
    omega

theorem claim_C9_factors_immutable_witness : (0 : Nat) ≤ 1 :=
  claim_C9_factors_immutable 0 1 (Or.inr (Or.inr (by decide)))

/-- Claim C10: the empty string is accepted without error on either side,
but its distances are not `insertCost × length` and `deleteCost × length`:
with insert cost 0 and delete cost 2 the code returns 1 for both
distance("", "a") (claimed 0 × 1 = 0) and distance("a", "") (claimed
2 × 1 = 2), since every composed insertion or deletion arc weighs
`ins/2 + del/2 = 1`. -/
theorem claim_C10_empty_string :
    (distance bugCfg [] ['a']).isSome = true ∧
    (distance bugCfg ['a'] []).isSome = true ∧
    distance bugCfg [] ['a'] = some 1 ∧
    distance bugCfg ['a'] [] = some 1 ∧
    bugCfg.ins * 1 = (0 : ℚ) ∧ bugCfg.del * 1 = (2 : ℚ) := by
  with_unfolding_all decide

end ET
